import Mathlib

/-!
Verification development for a small content-addressable object store and
pack-stream decoder (source: src/app/main.ts).

Modelling conventions, used throughout:
* Byte buffers are `List Nat` with entries below 256.
* JS strings that the program handles byte-wise are modelled by their UTF-8
  byte lists; all string literals of the program are ASCII, so `strBytes`
  (code points) is exactly the byte encoding.
* zlib DEFLATE/INFLATE form a bijection applied at the store boundary
  (`inflate (deflate x) = x`), so the object store is modelled at the
  decompressed layer: `writeGitObjectStore` produces the bytes that are
  hashed and compressed, and `inflateObject` consumes those same bytes.
* The SHA-1 digest is implemented in full (`sha1Hex`), so digest equality
  in theorems is equality of the real 40-character hex digests.
* JS 32-bit bitwise semantics (`<<`, `|`, `&` operate on 32-bit values and
  shifts are taken modulo 32) are modelled explicitly where they matter
  (the pack entry header varint loop).
-/

set_option maxRecDepth 1000000

/-- Code points of an ASCII string; for the program's ASCII literals this is
the UTF-8 byte list that `Buffer.from(s)` produces. -/
def strBytes (s : String) : List Nat := s.toList.map Char.toNat

/-- Decidable equality for `Except`, used to evaluate results on concrete
inputs. -/
instance {α β : Type} [DecidableEq α] [DecidableEq β] : DecidableEq (Except α β) := fun x y =>
  match x, y with
  | .error a, .error b =>
    if h : a = b then .isTrue (congrArg Except.error h)
    else .isFalse (fun hh => h (Except.error.inj hh))
  | .ok a, .ok b =>
    if h : a = b then .isTrue (congrArg Except.ok h)
    else .isFalse (fun hh => h (Except.ok.inj hh))
  | .error _, .ok _ => .isFalse (fun hh => Except.noConfusion hh)
  | .ok _, .error _ => .isFalse (fun hh => Except.noConfusion hh)

/-- Little-endian decimal digit characters of `n`: a fuel-bounded division
loop (fuel of at least `n` suffices, a positive number having no more digits
than its value). -/
def natToDecAux : Nat → Nat → List Nat
  | 0, _ => []
  | _ + 1, 0 => []
  | fuel + 1, n => (n % 10 + 48) :: natToDecAux fuel (n / 10)

/-- JS decimal rendering of a nonnegative integer (template interpolation of
`content.length`), as ASCII digit bytes, most significant first; `String(0)`
is `"0"`. -/
def natToDec (n : Nat) : List Nat :=
  if n = 0 then [48] else (natToDecAux n n).reverse

/-- JS whitespace accepted by `parseInt` before the number. -/
def isJsWS (c : Nat) : Bool :=
  c == 9 || c == 10 || c == 11 || c == 12 || c == 13 || c == 32

/-- ASCII decimal digit. -/
def isDigitB (c : Nat) : Bool := 48 ≤ c && c ≤ 57

/-- ASCII hexadecimal digit. -/
def isHexDigitB (c : Nat) : Bool :=
  isDigitB c || (97 ≤ c && c ≤ 102) || (65 ≤ c && c ≤ 70)

/-- Value of one hexadecimal digit character. -/
def hexVal (c : Nat) : Nat :=
  if isDigitB c then c - 48 else if 97 ≤ c then c - 87 else c - 55

/-- Accumulate decimal digit characters, most significant first. -/
def decValue (l : List Nat) : Nat := l.foldl (fun a c => a * 10 + (c - 48)) 0

/-- Accumulate hexadecimal digit characters, most significant first. -/
def hexValue (l : List Nat) : Nat := l.foldl (fun a c => a * 16 + hexVal c) 0

/-- JS `parseInt(s)` with no radix argument, on the byte list of `s`: skip
whitespace, optional sign, auto-detected `0x` prefix selects base 16,
otherwise leading decimal digits; no digits means NaN (`none`). -/
def parseIntJS (s : List Nat) : Option Int :=
  let t := s.dropWhile isJsWS
  let neg := t.headD 0 == 45
  let u := if t.headD 0 == 43 || t.headD 0 == 45 then t.tail else t
  let hex := u.headD 0 == 48 && (u.tail.headD 0 == 120 || u.tail.headD 0 == 88)
  let ds := if hex then u.tail.tail.takeWhile isHexDigitB else u.takeWhile isDigitB
  if ds.isEmpty then none
  else if neg then some (-(if hex then (hexValue ds : Int) else (decValue ds : Int)))
  else some (if hex then (hexValue ds : Int) else (decValue ds : Int))

/-- JS `String.prototype.split` on a one-character separator, on byte lists:
every separator occurrence splits, empty pieces are kept, and the empty
string yields `[[]]`. -/
def splitOnByte (c : Nat) : List Nat → List (List Nat)
  | [] => [[]]
  | b :: r =>
    match splitOnByte c r with
    | p :: ps => if b == c then [] :: p :: ps else (b :: p) :: ps
    | [] => [[]]

/-- `Array.prototype.join` on a one-character separator, on byte lists. -/
def joinByte (c : Nat) : List (List Nat) → List Nat
  | [] => []
  | [x] => x
  | x :: xs => x ++ c :: joinByte c xs

/-- Whether `pre` is an initial segment of `l` (JS `startsWith`). -/
def startsWithB : List Nat → List Nat → Bool
  | [], _ => true
  | _ :: _, [] => false
  | p :: ps, b :: bs => p == b && startsWithB ps bs

/-- Lowercase hex rendering of a byte list (`Buffer.toString("hex")`). -/
def hexDigitChar (n : Nat) : Nat := if n < 10 then n + 48 else n + 87

/-- See `hexDigitChar`. -/
def hexOfBytes : List Nat → List Nat
  | [] => []
  | b :: r => hexDigitChar (b / 16) :: hexDigitChar (b % 16) :: hexOfBytes r

/-- `Buffer.from(hexString, "hex")`: consume hex digit pairs into bytes. -/
def hexPairsToBytes : List Nat → List Nat
  | a :: b :: rest => (hexVal a * 16 + hexVal b) :: hexPairsToBytes rest
  | _ => []

/-- `buffer[i]` with the out-of-range behaviour the source relies on: a JS
out-of-range Buffer read yields `undefined`, which the bitwise operators and
truthiness checks of the header loop coerce to 0. -/
def byteAt (data : List Nat) (i : Nat) : Nat := data.getD i 0

/-- `Buffer.indexOf(target, start)`: first index at or after `start`, if any. -/
def bufIndexOfFrom (buf : List Nat) (target : Nat) (start : Nat) : Option Nat :=
  ((buf.drop start).findIdx? fun b => b == target).map (fun i => i + start)

/-! ### Object store codec (GitCommand.writeGitObject / GitCommand.inflateObject) -/

/-- The two failures of `GitCommand.inflateObject` (both `CorruptObject` in the
spec's taxonomy): no NUL byte found, and declared/actual size mismatch (the
latter also covers a size field that parses to NaN, since `length !== NaN`
always holds). -/
inductive GitErr where
  | noNullByte
  | sizeMismatch
  deriving DecidableEq

/-- `GitCommand.writeGitObject` (lines 241-257): the canonical encoding
`"<type> <content.length>\0" ++ content` that is SHA-1-hashed and then
DEFLATE-compressed into the store. -/
def writeGitObjectStore (ty : String) (content : List Nat) : List Nat :=
  strBytes ty ++ 32 :: (natToDec content.length ++ 0 :: content)

/-- The parsed size field of a decoded header: `header.split(" ")`
destructured into `[type, size]` and `parseInt(size)`; a missing second piece
is `undefined`, and `parseInt(undefined)` is NaN (`none`). -/
def declaredSizeOf (header : List Nat) : Option Int :=
  match splitOnByte 32 header with
  | _ :: s :: _ => parseIntJS s
  | _ => none

/-- `GitCommand.inflateObject` (lines 219-239) applied to the decompressed
bytes: find the first NUL, split the header on spaces into `[type, size]`
(destructuring takes the first two pieces; a missing piece is `undefined` and
`parseInt(undefined)` is NaN), and fail unless the remaining content length
equals the parsed size. Returns (type bytes, content bytes). -/
def inflateObject (inflated : List Nat) : Except GitErr (List Nat × List Nat) :=
  match inflated.findIdx? (fun b => b == 0) with
  | none => .error .noNullByte
  | some i =>
    let header := inflated.take i
    let ty := (splitOnByte 32 header).headD []
    let content := inflated.drop (i + 1)
    match declaredSizeOf header with
    | none => .error .sizeMismatch
    | some n => if (content.length : Int) = n then .ok (ty, content) else .error .sizeMismatch

/-- `GitCommand.catFile` (lines 306-315): read, inflate, and write the content
bytes to stdout; modelled as the bytes written, at the decompressed layer. -/
def catFileOutput (inflated : List Nat) : Except GitErr (List Nat) :=
  (inflateObject inflated).map (fun kc => kc.2)

/-- `GitCommand.hashObject` stores the file contents under kind "blob"; the
(kind, content) pair handed to writeGitObject, whose store encoding (and hence
digest) is `writeGitObjectStore "blob" content`. -/
def hashObjectStored (content : List Nat) : String × List Nat := ("blob", content)

/-! ### Tree payload parsing (GitCommand.parseTreeContent) -/

/-- One parsed tree entry: mode and name as byte lists, hash as the 40
lowercase hex characters of the 20 raw bytes (`toString("hex")`). -/
structure TreeEntryM where
  mode : List Nat
  hash : List Nat
  name : List Nat
  deriving DecidableEq

/-- The `while (position < buffer.length)` loop of
`GitCommand.parseTreeContent` (lines 259-289).  A missing space or missing
NUL breaks out of the loop, returning the entries collected so far.  Each
iteration moves `position` past the 20 hash bytes, so `buffer.length + 1`
fuel always suffices; fuel only bounds the iteration count. -/
def parseTreeLoop (buffer : List Nat) (position : Nat) : Nat → List TreeEntryM
  | 0 => []
  | fuel + 1 =>
    if position < buffer.length then
      match bufIndexOfFrom buffer 32 position with
      | none => []
      | some spaceIndex =>
        match bufIndexOfFrom buffer 0 (spaceIndex + 1) with
        | none => []
        | some nullIndex =>
          { mode := (buffer.take spaceIndex).drop position,
            hash := hexOfBytes ((buffer.take (nullIndex + 21)).drop (nullIndex + 1)),
            name := (buffer.take nullIndex).drop (spaceIndex + 1) } ::
            parseTreeLoop buffer (nullIndex + 21) fuel
    else []

/-- `GitCommand.parseTreeContent`: run the scan loop from position 0. -/
def parseTreeContent (buffer : List Nat) : List TreeEntryM :=
  parseTreeLoop buffer 0 (buffer.length + 1)

/-- The byte layout of a list of well-formed tree entries, each
`"<mode> <name>\0"` followed by 20 raw digest bytes (§3's TreeEntry
encoding, the shape writeTree emits and parseTreeContent scans): entries are
given as (mode bytes, name bytes, raw hash bytes). -/
def encodeTreeEntries : List (List Nat × List Nat × List Nat) → List Nat
  | [] => []
  | (mode, name, hash) :: es => mode ++ 32 :: (name ++ 0 :: (hash ++ encodeTreeEntries es))

/-! ### Commit payload (GitCommand.commitTree) and its spec-side decoder -/

/-- The fixed author identity constant. -/
def AUTHOR : String := "Anubhab Debnath <example@email.com>"

/-- The fixed committer identity constant. -/
def COMMITTER : String := "Anubhab Debnath <example@email.com>"

/-- `GitCommand.commitTree` (lines 401-425): the seven `join("\n")` pieces;
the timestamp (`Date.now()/1000`) is a parameter.  A null parent, like the
empty string, is falsy in JS, so the parent piece is then the empty string. -/
def commitContentBytes (treeHash : List Nat) (parentHash : Option (List Nat))
    (message : List Nat) (timestamp : Nat) : List Nat :=
  joinByte 10
    [strBytes "tree " ++ treeHash,
      (match parentHash with
        | some p => if p.isEmpty then [] else strBytes "parent " ++ p
        | none => []),
      strBytes ("author " ++ AUTHOR ++ " ") ++ natToDec timestamp ++ strBytes " +0530",
      strBytes ("committer " ++ COMMITTER ++ " ") ++ natToDec timestamp ++ strBytes " +0530",
      [], message, []]

/-- Modelled from the spec: `decodeCommit` (§4.3) is not part of src/ (only
commit encoding is implemented there).  Per §3 the commit payload is a
line-oriented block whose header lines precede the first blank line; decoding
fails (`MalformedCommit`) when the `tree` line is missing; the `parent` line
is optional.  Returns (tree digest, optional parent digest). -/
def decodeCommitModel (payload : List Nat) : Option (List Nat × Option (List Nat)) :=
  let headerLines := (splitOnByte 10 payload).takeWhile (fun l => !l.isEmpty)
  match headerLines.find? (fun l => startsWithB (strBytes "tree ") l) with
  | none => none
  | some t =>
      some (t.drop 5,
        (headerLines.find? (fun l => startsWithB (strBytes "parent ") l)).map (fun l => l.drop 7))

/-! ### Pack stream decoding (GitCloneCommand) -/

/-- Failures of the pack decoding path. -/
inductive PackErr where
  | badPackSignature
  | rangeErr
  | inflateFailed
  | unknownType (t : Nat)
  deriving DecidableEq

/-- 32-bit truncation (the unsigned bit pattern of a JS int32 result). -/
def toUInt32N (n : Nat) : Nat := n % 4294967296

/-- JS `x << s`: the shift count is taken modulo 32 and the result is a
32-bit value.  We track the unsigned bit pattern. -/
def jsShl (x s : Nat) : Nat := toUInt32N (x <<< (s % 32))

/-- JS `a | b` on 32-bit values (unsigned bit pattern). -/
def jsOr32 (a b : Nat) : Nat := toUInt32N (a ||| b)

/-- The signed JS number a 32-bit pattern denotes. -/
def int32OfPattern (n : Nat) : Int :=
  if n < 2147483648 then (n : Int) else (n : Int) - 4294967296

/-- The `while (byte & 0x80)` loop of `GitCloneCommand.processPackfile`
(lines 108-111), entered when the previous byte has bit 7 set, acting on the
bytes after the current offset: read the next byte (an out-of-range read
gives `undefined`, coerced to 0 by `&` and `<<` and falsy in the loop test),
or its low 7 bits (`byte & 0x7f`, i.e. `% 128`) into the accumulator at the
current shift, add 7 to the shift; stop when the byte just read has bit 7
clear.  Returns (accumulator, number of bytes read). -/
def contLoop : List Nat → Nat → Nat → Nat × Nat
  | [], size, shift => (jsOr32 size (jsShl 0 shift), 1)
  | b :: rest, size, shift =>
    let size1 := jsOr32 size (jsShl (b % 128) shift)
    if b &&& 128 == 0 then (size1, 1)
    else
      let sk := contLoop rest size1 (shift + 7)
      (sk.1, sk.2 + 1)

/-- The pack entry header parse (lines 103-111): the first byte gives the
type tag (`(byte >> 4) & 7`, i.e. `/ 16 % 8`) and the low 4 size bits
(`byte & 15`, i.e. `% 16`); while bit 7 is set the continuation loop runs at
shift 4.  Returns (type tag, size pattern, new offset). -/
def parseEntryHeader (data : List Nat) (offset : Nat) : Nat × Nat × Nat :=
  let b := byteAt data offset
  let ty := b / 16 % 8
  let size0 := b % 16
  if b &&& 128 == 0 then (ty, size0, offset + 1)
  else
    let sk := contLoop (data.drop (offset + 1)) size0 4
    (ty, sk.1, offset + 1 + sk.2)

/-- The continuation bytes the loop actually folds, extracted structurally
from the bytes after the first header byte: collect bytes up to and including
the first one with bit 7 clear; an out-of-range read contributes the single
coerced byte 0. -/
def foldedBytes : List Nat → List Nat
  | [] => [0]
  | b :: rest => if b &&& 128 == 0 then [b] else b :: foldedBytes rest

/-- The continuation-byte list of the header starting at `offset`: empty when
the first byte has bit 7 clear, else the folded bytes of the remainder. -/
def contOf (data : List Nat) (offset : Nat) : List Nat :=
  if byteAt data offset &&& 128 == 0 then [] else foldedBytes (data.drop (offset + 1))

/-- The size formula exactly as claim C5 states it: the accumulator is seeded
with the first byte's low 4 bits, and each continuation byte's low 7 bits are
folded (or-ed) in at a bit shift that starts at 4 and increases by 7 per
byte — at arbitrary precision, with no 32-bit wrap. -/
def claimSizeAux : List Nat → Nat → Nat
  | [], _ => 0
  | b :: rest, shift => ((b % 128) <<< shift) ||| claimSizeAux rest (shift + 7)

/-- See `claimSizeAux`. -/
def claimSize (b0 : Nat) (cont : List Nat) : Nat := b0 % 16 ||| claimSizeAux cont 4

/-- `GitCloneCommand.parsePackHeader` (lines 85-93): the first 4 bytes must
decode to "PACK" (UTF-8 decoding yields "PACK" exactly for the bytes
80,65,67,75); then the big-endian version and object count are read
(`readUInt32BE` throws a range error on a buffer shorter than 12 bytes).
Returns the object count. -/
def parsePackHeader (data : List Nat) : Except PackErr Nat :=
  if data.take 4 ≠ [80, 65, 67, 75] then .error .badPackSignature
  else if data.length < 12 then .error .rangeErr
  else .ok (((byteAt data 8 * 256 + byteAt data 9) * 256 + byteAt data 10) * 256 + byteAt data 11)

/-- One iteration of the `processPackfile` entry loop (lines 102-140),
parameterised by the inflate collaborator: parse the entry header; a delta
entry (type 6 or 7) advances the cursor by the declared size and stores
nothing; otherwise the code inflates `packData.subarray(offset)` — the whole
remaining buffer — and, on line 123, advances the cursor by that subarray's
length (`offset += compressed.length`), then maps the type tag (1 commit,
2 tree, 3 blob, else an unknown-type error) and stores the object.
Returns (stored object if any, new offset). -/
def packStep (inflate : List Nat → Option (List Nat)) (data : List Nat) (offset : Nat) :
    Except PackErr (Option (String × List Nat) × Nat) :=
  let tso := parseEntryHeader data offset
  let ty := tso.1
  let size := tso.2.1
  let off1 := tso.2.2
  if ty = 6 ∨ ty = 7 then .ok (none, off1 + size)
  else
    let compressed := data.drop off1
    match inflate compressed with
    | none => .error .inflateFailed
    | some objectData =>
      let off2 := off1 + compressed.length
      match ty with
      | 1 => .ok (some ("commit", objectData), off2)
      | 2 => .ok (some ("tree", objectData), off2)
      | 3 => .ok (some ("blob", objectData), off2)
      | _ => .error (.unknownType ty)

/-- The entry loop run `numObjects` times.  Store writes performed before an
abort persist, so the stored-objects list is returned alongside the error. -/
def packLoop (inflate : List Nat → Option (List Nat)) (data : List Nat) :
    Nat → Nat → List (String × List Nat) → List (String × List Nat) × Option PackErr
  | 0, _, acc => (acc, none)
  | n + 1, offset, acc =>
    match packStep inflate data offset with
    | .error e => (acc, some e)
    | .ok (none, off2) => packLoop inflate data n off2 acc
    | .ok (some obj, off2) => packLoop inflate data n off2 (acc ++ [obj])

/-- `GitCloneCommand.processPackfile` (lines 95-142): parse the 12-byte
header, then run the entry loop starting at offset 12.  Returns the objects
stored, in store order, and the error that aborted the run, if any. -/
def processPackfile (inflate : List Nat → Option (List Nat)) (packData : List Nat) :
    List (String × List Nat) × Option PackErr :=
  match parsePackHeader packData with
  | .error e => ([], some e)
  | .ok numObjects => packLoop inflate packData numObjects 12 []

/-- Modelled from the spec: zlib inflate, the external decompressor
collaborator (§4.6: "the decompressor must stop consuming input exactly at
the end of one compressed member"; Node's one-shot inflate decodes the first
member and ignores trailing bytes).  Toy self-delimiting member layout
standing in for a zlib member: the byte 0x78, one length byte n, then n
payload bytes; decoding fails on anything else. -/
def toyInflate : List Nat → Option (List Nat)
  | 120 :: n :: rest => if n ≤ rest.length then some (rest.take n) else none
  | _ => none

/-- The number of compressed input bytes `toyInflate` consumes: the length of
the one member it decodes (2 header bytes plus the payload). -/
def toyConsumed : List Nat → Option Nat
  | 120 :: n :: rest => if n ≤ rest.length then some (2 + n) else none
  | _ => none

/-- The bytes "hello\n". -/
def helloBytes : List Nat := [104, 101, 108, 108, 111, 10]

/-- A pack stream with a valid header declaring 2 entries, both literal blobs
with payload "hi": entry framing is one header byte (type 3, size 2) followed
by one toy compressed member of 4 bytes. -/
def packTwoLiterals : List Nat :=
  [80, 65, 67, 75, 0, 0, 0, 2, 0, 0, 0, 2] ++
    [50, 120, 2, 104, 105] ++ [50, 120, 2, 104, 105]

/-- The concrete 2-entry scenario of claim C2: entry 1 a literal blob
"hello\n" (header byte 54 = type 3, size 6; member of 8 bytes), entry 2 a
ref-delta (header byte 99 = type 6, declared size 3; 20-byte base digest of
zeros, then a 5-byte member). -/
def packHelloThenDelta : List Nat :=
  [80, 65, 67, 75, 0, 0, 0, 2, 0, 0, 0, 2] ++
    (54 :: 120 :: 6 :: helloBytes) ++
    (99 :: (List.replicate 20 0 ++ [120, 3, 1, 2, 3]))

/-- The same two entries in the other order: the ref-delta first, then the
literal blob "hello\n". -/
def packDeltaThenHello : List Nat :=
  [80, 65, 67, 75, 0, 0, 0, 2, 0, 0, 0, 2] ++
    (99 :: (List.replicate 20 0 ++ [120, 3, 1, 2, 3])) ++
    (54 :: 120 :: 6 :: helloBytes)

/-! ### SHA-1 (the Hasher) -/

/-- 32-bit rotate left (operand below 2^32). -/
def rotl32 (x n : Nat) : Nat := ((x <<< n) ||| (x >>> (32 - n))) % 4294967296

/-- Big-endian bytes of `n`, `k` bytes wide. -/
def beBytes : Nat → Nat → List Nat
  | 0, _ => []
  | k + 1, n => beBytes k (n / 256) ++ [n % 256]

/-- SHA-1 padding: append 0x80, zeros to 56 mod 64, then the bit length as 8
big-endian bytes. -/
def sha1Pad (msg : List Nat) : List Nat :=
  msg ++ 128 :: List.replicate ((120 - (msg.length + 1) % 64) % 64) 0 ++ beBytes 8 (msg.length * 8)

/-- Split into 64-byte blocks (fuel is an upper bound on the block count). -/
def chunk64Go : Nat → List Nat → List (List Nat)
  | 0, _ => []
  | _ + 1, [] => []
  | fuel + 1, l => l.take 64 :: chunk64Go fuel (l.drop 64)

/-- See `chunk64Go`. -/
def chunk64 (l : List Nat) : List (List Nat) := chunk64Go (l.length / 64 + 1) l

/-- The 16 big-endian 32-bit words of a 64-byte block. -/
def words16 : List Nat → List Nat
  | a :: b :: c :: d :: rest => (((a * 256 + b) * 256 + c) * 256 + d) :: words16 rest
  | _ => []

/-- Extend the 16 words to 80 by the SHA-1 recurrence. -/
def extendW : List Nat → Nat → List Nat
  | w, 0 => w
  | w, k + 1 =>
    let i := w.length
    let x := rotl32 ((w.getD (i - 3) 0) ^^^ (w.getD (i - 8) 0) ^^^
      (w.getD (i - 14) 0) ^^^ (w.getD (i - 16) 0)) 1
    extendW (w ++ [x]) k

/-- The SHA-1 round function. -/
def sha1F (t b c d : Nat) : Nat :=
  if t < 20 then (b &&& c) ||| ((b ^^^ 4294967295) &&& d)
  else if t < 40 then b ^^^ c ^^^ d
  else if t < 60 then (b &&& c) ||| (b &&& d) ||| (c &&& d)
  else b ^^^ c ^^^ d

/-- The SHA-1 round constants. -/
def sha1K (t : Nat) : Nat :=
  if t < 20 then 1518500249 else if t < 40 then 1859775393
  else if t < 60 then 2400959708 else 3395469782

/-- The 80 SHA-1 rounds over the extended word list. -/
def sha1Rounds : List Nat → Nat → Nat × Nat × Nat × Nat × Nat → Nat × Nat × Nat × Nat × Nat
  | [], _, st => st
  | wt :: ws, t, (a, b, c, d, e) =>
    let temp := (rotl32 a 5 + sha1F t b c d + e + sha1K t + wt) % 4294967296
    sha1Rounds ws (t + 1) (temp, a, rotl32 b 30, c, d)

/-- Compress one 64-byte block into the running state. -/
def sha1Block (hs : Nat × Nat × Nat × Nat × Nat) (block : List Nat) :
    Nat × Nat × Nat × Nat × Nat :=
  match sha1Rounds (extendW (words16 block) 64) 0 hs, hs with
  | (a, b, c, d, e), (h0, h1, h2, h3, h4) =>
    ((h0 + a) % 4294967296, (h1 + b) % 4294967296, (h2 + c) % 4294967296,
      (h3 + d) % 4294967296, (h4 + e) % 4294967296)

/-- SHA-1 of a byte list, as 20 bytes. -/
def sha1Bytes (msg : List Nat) : List Nat :=
  match (chunk64 (sha1Pad msg)).foldl sha1Block
      (1732584193, 4023233417, 2562383102, 271733878, 3285377520) with
  | (h0, h1, h2, h3, h4) =>
    beBytes 4 h0 ++ beBytes 4 h1 ++ beBytes 4 h2 ++ beBytes 4 h3 ++ beBytes 4 h4

/-- SHA-1 of a byte list as 40 lowercase hex characters (`digest("hex")`). -/
def sha1Hex (msg : List Nat) : List Nat := hexOfBytes (sha1Bytes msg)

/-- The hex digest `GitCommand.writeGitObject` computes and returns. -/
def writeGitObjectHex (ty : String) (content : List Nat) : List Nat :=
  sha1Hex (writeGitObjectStore ty content)

/-! ### write-tree (GitCommand.writeTree) -/

/-- An abstract directory listing entry: the dirent name together with either
file contents or the child listing. -/
inductive FsEntry where
  | file (name : String) (content : List Nat)
  | dir (name : String) (children : List FsEntry)

/-- The dirent's name. -/
def FsEntry.name : FsEntry → String
  | .file n _ => n
  | .dir n _ => n

/-- Primary collation weight of one ASCII code point: letters compare
case-insensitively and above all non-letters. -/
def collPrimary (c : Nat) : Nat :=
  if 97 ≤ c ∧ c ≤ 122 then 1000 + (c - 97)
  else if 65 ≤ c ∧ c ≤ 90 then 1000 + (c - 65)
  else c

/-- Case weight of one ASCII code point: lowercase before uppercase. -/
def collCase (c : Nat) : Nat := if 65 ≤ c ∧ c ≤ 90 then 1 else 0

/-- Lexicographic comparison of weight lists (-1, 0 or 1). -/
def lexCmp : List Nat → List Nat → Int
  | [], [] => 0
  | [], _ :: _ => -1
  | _ :: _, [] => 1
  | a :: as, b :: bs => if a < b then -1 else if b < a then 1 else lexCmp as bs

/-- Modelled from the spec: `String.prototype.localeCompare` with the default
locale is an external runtime collaborator (ECMA-402 / ICU root collation).
Restricted to ASCII names: the primary pass is case-insensitive alphabetic
with non-letters below letters, and a case pass (lowercase first) breaks
primary ties.  In particular "a".localeCompare("B") is negative although
byte-wise 0x42 ("B") sorts before 0x61 ("a"). -/
def localeCompareModel (a b : String) : Int :=
  let p := lexCmp ((strBytes a).map collPrimary) ((strBytes b).map collPrimary)
  if p = 0 then lexCmp ((strBytes a).map collCase) ((strBytes b).map collCase) else p

/-- Insert into a sorted list by the localeCompare comparator. -/
def insertByLC (x : FsEntry) : List FsEntry → List FsEntry
  | [] => [x]
  | y :: ys =>
    if localeCompareModel (FsEntry.name x) (FsEntry.name y) ≤ 0 then x :: y :: ys
    else y :: insertByLC x ys

/-- `dirents.sort((a, b) => a.name.localeCompare(b.name))` (line 356):
comparison sort by the localeCompare comparator. -/
def sortDirents : List FsEntry → List FsEntry
  | [] => []
  | x :: xs => insertByLC x (sortDirents xs)

/-- One encoded tree entry as built on lines 381-386: mode and name as
strings, hash as the 40 hex characters returned by writeGitObject. -/
structure TreeEntryW where
  mode : String
  name : String
  hash : List Nat
  deriving DecidableEq

/-- Concatenation of `"<mode> <name>\0"` and the 20 raw digest bytes
(`Buffer.from(hash, "hex")`) per entry, in list order (lines 381-386). -/
def treeContentOf : List TreeEntryW → List Nat
  | [] => []
  | e :: es =>
    (strBytes e.mode ++ 32 :: (strBytes e.name ++ [0])) ++
      hexPairsToBytes e.hash ++ treeContentOf es

/-- `GitCommand.writeTree` (lines 352-389) on an abstract listing: sort the
dirents with the localeCompare comparator, skip ".git", store each file as a
blob (mode "100644") and each subdirectory recursively as a tree (mode
"40000"), and collect the entries in sorted order.  `fuel` bounds the
recursion depth (the real filesystem is finite); the payload is the
concatenation `treeContentOf` of this entry list. -/
def writeTreeEntries : Nat → List FsEntry → List TreeEntryW
  | 0, _ => []
  | fuel + 1, dirents =>
    (sortDirents dirents).filterMap fun d =>
      match d with
      | .file n c =>
          if n = ".git" then none
          else some (TreeEntryW.mk "100644" n (writeGitObjectHex "blob" c))
      | .dir n children =>
          if n = ".git" then none
          else some (TreeEntryW.mk "40000" n
            (writeGitObjectHex "tree" (treeContentOf (writeTreeEntries fuel children))))

/-- The tree payload writeTree encodes and stores for a listing. -/
def writeTreePayload (fuel : Nat) (dirents : List FsEntry) : List Nat :=
  treeContentOf (writeTreeEntries fuel dirents)

/-- Byte-wise (not locale-aware) string order: compare code points
left-to-right, shorter strings first on ties. -/
def bytewiseLeB : List Nat → List Nat → Bool
  | [], _ => true
  | _ :: _, [] => false
  | a :: as, b :: bs => if a < b then true else if b < a then false else bytewiseLeB as bs

/-! ## Supporting lemmas -/

theorem natToDecAux_zero (fuel : Nat) : natToDecAux fuel 0 = [] := by
  cases fuel <;> rfl

theorem natToDecAux_bounds (fuel : Nat) :
    ∀ n c, c ∈ natToDecAux fuel n → 48 ≤ c ∧ c ≤ 57 := by
  induction fuel with
  | zero => intro n c hc; simp [natToDecAux] at hc
  | succ fuel ih =>
    intro n c hc
    cases n with
    | zero => simp [natToDecAux] at hc
    | succ m =>
      rcases List.mem_cons.mp hc with h | h
      · have hlt : (m + 1) % 10 < 10 := Nat.mod_lt _ (by norm_num)
        omega
      · exact ih _ _ h

theorem natToDec_bounds (n : Nat) : ∀ c ∈ natToDec n, 48 ≤ c ∧ c ≤ 57 := by
  intro c hc
  unfold natToDec at hc
  split at hc
  · simp at hc; omega
  · exact natToDecAux_bounds n n c (List.mem_reverse.mp hc)

theorem natToDecAux_foldl (fuel : Nat) : ∀ n acc, n ≤ fuel →
    List.foldl (fun a c => a * 10 + (c - 48)) acc (natToDecAux fuel n).reverse
      = acc * 10 ^ (natToDecAux fuel n).length + n := by
  induction fuel with
  | zero =>
    intro n acc h
    have : n = 0 := by omega
    subst this
    simp [natToDecAux]
  | succ fuel ih =>
    intro n acc h
    cases n with
    | zero => simp [natToDecAux]
    | succ m =>
      have hd : natToDecAux (fuel + 1) (m + 1)
          = ((m + 1) % 10 + 48) :: natToDecAux fuel ((m + 1) / 10) := rfl
      have hdiv : (m + 1) / 10 < m + 1 := Nat.div_lt_self (Nat.succ_pos m) (by norm_num)
      rw [hd, List.reverse_cons, List.foldl_append, ih ((m + 1) / 10) acc (by omega)]
      have hmod := Nat.div_add_mod (m + 1) 10
      have hpow : 10 ^ (((m + 1) % 10 + 48) :: natToDecAux fuel ((m + 1) / 10)).length
          = 10 ^ (natToDecAux fuel ((m + 1) / 10)).length * 10 := by
        simp [List.length_cons, pow_succ]
      rw [hpow]
      simp only [List.foldl_cons, List.foldl_nil]
      have hc : (m + 1) % 10 + 48 - 48 = (m + 1) % 10 := by omega
      rw [hc]
      set L := 10 ^ (natToDecAux fuel ((m + 1) / 10)).length with hL
      ring_nf
      omega

theorem natToDecAux_head (fuel : Nat) : ∀ n, 1 ≤ n → n ≤ fuel →
    ∃ c l, (natToDecAux fuel n).reverse = c :: l ∧ 49 ≤ c ∧ c ≤ 57 := by
  induction fuel with
  | zero => intro n h1 h2; omega
  | succ fuel ih =>
    intro n h1 h2
    cases n with
    | zero => omega
    | succ m =>
      have hd : natToDecAux (fuel + 1) (m + 1)
          = ((m + 1) % 10 + 48) :: natToDecAux fuel ((m + 1) / 10) := rfl
      by_cases hq : (m + 1) / 10 = 0
      · have hlt : m + 1 < 10 := by
          by_contra hge
          have : 1 ≤ (m + 1) / 10 := Nat.one_le_div_iff (by norm_num) |>.mpr (by omega)
          omega
        refine ⟨(m + 1) % 10 + 48, [], ?_, by omega, by omega⟩
        rw [hd, hq, natToDecAux_zero, List.reverse_cons]
        simp
      · have hdiv : (m + 1) / 10 < m + 1 := Nat.div_lt_self (Nat.succ_pos m) (by norm_num)
        obtain ⟨c, l, hrev, hc1, hc2⟩ := ih ((m + 1) / 10) (by omega) (by omega)
        refine ⟨c, l ++ [(m + 1) % 10 + 48], ?_, hc1, hc2⟩
        rw [hd, List.reverse_cons, hrev]
        simp

theorem parseIntJS_natToDec (n : Nat) : parseIntJS (natToDec n) = some (n : Int) := by
  by_cases hn : n = 0
  · subst hn; decide
  · have hrepr : natToDec n = (natToDecAux n n).reverse := by
      unfold natToDec; rw [if_neg hn]
    obtain ⟨c, l, hrev, hc1, hc2⟩ := natToDecAux_head n n (by omega) le_rfl
    have hmem : ∀ x ∈ natToDec n, 48 ≤ x ∧ x ≤ 57 := natToDec_bounds n
    rw [hrepr, hrev] at hmem ⊢
    have hcws : isJsWS c = false := by simp [isJsWS]; omega
    have hdigits : ∀ x ∈ c :: l, isDigitB x = true := by
      intro x hx
      have := hmem x hx
      simp [isDigitB]; omega
    have hc43 : c ≠ 43 := by omega
    have hc45 : c ≠ 45 := by omega
    have hc48 : c ≠ 48 := by omega
    have hval : decValue (c :: l) = n := by
      have := natToDecAux_foldl n n 0 le_rfl
      rw [hrev] at this
      simpa [decValue] using this
    unfold parseIntJS
    simp [List.dropWhile_cons, hcws, hc43, hc45, hc48,
      List.takeWhile_eq_self_iff.mpr hdigits, hval]

theorem splitOnByte_shape (c : Nat) (l : List Nat) : ∃ p ps, splitOnByte c l = p :: ps := by
  cases l with
  | nil => exact ⟨[], [], rfl⟩
  | cons b r =>
    rcases hs : splitOnByte c r with _ | ⟨p, ps⟩
    · exact ⟨[], [], by simp [splitOnByte, hs]⟩
    · by_cases hb : (b == c) = true
      · exact ⟨[], p :: ps, by simp [splitOnByte, hs, hb]⟩
      · exact ⟨b :: p, ps, by simp [splitOnByte, hs, hb]⟩

theorem splitOnByte_no_sep (c : Nat) : ∀ l : List Nat, (∀ b ∈ l, b ≠ c) → splitOnByte c l = [l] := by
  intro l
  induction l with
  | nil => intro _; rfl
  | cons b r ih =>
    intro h
    have hb : (b == c) = false := by
      simp only [beq_eq_false_iff_ne, ne_eq]
      exact h b (by simp)
    have hr := ih (fun x hx => h x (by simp [hx]))
    simp [splitOnByte, hr, hb]

theorem splitOnByte_sep (c : Nat) : ∀ x r : List Nat, (∀ b ∈ x, b ≠ c) →
    splitOnByte c (x ++ c :: r) = x :: splitOnByte c r := by
  intro x
  induction x with
  | nil =>
    intro r _
    obtain ⟨p, ps, hs⟩ := splitOnByte_shape c r
    simp [splitOnByte, hs]
  | cons b y ih =>
    intro r h
    have hb : (b == c) = false := by
      simp only [beq_eq_false_iff_ne, ne_eq]
      exact h b (by simp)
    have hy := ih r (fun x hx => h x (by simp [hx]))
    simp only [List.cons_append, splitOnByte, hb, List.append_eq]
    rw [hy]
    simp

theorem findIdx0_append (p : List Nat) : ∀ (hdr : List Nat) (i : Nat), (∀ b ∈ hdr, b ≠ 0) →
    List.findIdx? (fun b => b == 0) (hdr ++ 0 :: p) i = some (hdr.length + i) := by
  intro hdr
  induction hdr with
  | nil => intro i _; simp [List.findIdx?_cons]
  | cons b r ih =>
    intro i h
    have hb : (b == 0) = false := by
      simp only [beq_eq_false_iff_ne, ne_eq]
      exact h b (by simp)
    rw [List.cons_append, List.findIdx?_cons, hb]
    simp only [Bool.false_eq_true, if_false]
    rw [ih (i + 1) (fun x hx => h x (by simp [hx]))]
    simp only [List.length_cons]
    congr 1
    omega

theorem drop_header (hdr p : List Nat) (x : Nat) :
    (hdr ++ x :: p).drop (hdr.length + 1) = p := by
  rw [List.append_cons]
  have : (hdr ++ [x]).length = hdr.length + 1 := by simp
  rw [← this, List.drop_left]

theorem inflateObject_encode (k p : List Nat) (hk0 : ∀ b ∈ k, b ≠ 0)
    (hk32 : ∀ b ∈ k, b ≠ 32) :
    inflateObject (k ++ 32 :: (natToDec p.length ++ 0 :: p)) = .ok (k, p) := by
  have hassoc : k ++ 32 :: (natToDec p.length ++ 0 :: p)
      = (k ++ 32 :: natToDec p.length) ++ 0 :: p := by simp
  have hhdr0 : ∀ b ∈ k ++ 32 :: natToDec p.length, b ≠ 0 := by
    intro b hb
    rcases List.mem_append.mp hb with h | h
    · exact hk0 b h
    · rcases List.mem_cons.mp h with rfl | h
      · omega
      · have := natToDec_bounds p.length b h; omega
  have hfind :
      (k ++ 32 :: (natToDec p.length ++ 0 :: p)).findIdx? (fun b => b == 0)
        = some (k ++ 32 :: natToDec p.length).length := by
    rw [hassoc]
    have := findIdx0_append p (k ++ 32 :: natToDec p.length) 0 hhdr0
    simpa using this
  have htake : (k ++ 32 :: (natToDec p.length ++ 0 :: p)).take
      (k ++ 32 :: natToDec p.length).length = k ++ 32 :: natToDec p.length := by
    rw [hassoc, List.take_left]
  have hdrop : (k ++ 32 :: (natToDec p.length ++ 0 :: p)).drop
      ((k ++ 32 :: natToDec p.length).length + 1) = p := by
    rw [hassoc, drop_header]
  have hsplit : splitOnByte 32 (k ++ 32 :: natToDec p.length)
      = [k, natToDec p.length] := by
    rw [splitOnByte_sep 32 k (natToDec p.length) hk32,
      splitOnByte_no_sep 32 (natToDec p.length)
        (fun b hb => by have := natToDec_bounds p.length b hb; omega)]
  have hsize : declaredSizeOf (k ++ 32 :: natToDec p.length) = some (p.length : Int) := by
    rw [declaredSizeOf, hsplit]
    exact parseIntJS_natToDec p.length
  rw [inflateObject, hfind]
  simp only [htake, hdrop, hsize, hsplit]
  simp

theorem foldedBytes_length_pos (l : List Nat) : 1 ≤ (foldedBytes l).length := by
  cases l with
  | nil => simp [foldedBytes]
  | cons b r =>
    by_cases hb : (b &&& 128 == 0) = true <;> simp [foldedBytes, hb]

theorem shl7_lt (b s : Nat) (h : s ≤ 25) : (b % 128) <<< s < 4294967296 := by
  rw [Nat.shiftLeft_eq]
  have h1 : b % 128 ≤ 127 := by omega
  have h2 : (2 : Nat) ^ s ≤ 2 ^ 25 := Nat.pow_le_pow_right (by norm_num) h
  calc (b % 128) * 2 ^ s ≤ 127 * 2 ^ 25 := Nat.mul_le_mul h1 h2
    _ < 4294967296 := by norm_num

theorem jsShl_small (x s : Nat) (hs : s < 32) (hx : x <<< s < 4294967296) :
    jsShl x s = x <<< s := by
  rw [jsShl, Nat.mod_eq_of_lt hs, toUInt32N, Nat.mod_eq_of_lt hx]

theorem jsOr32_small (a b : Nat) (ha : a < 4294967296) (hb : b < 4294967296) :
    jsOr32 a b = a ||| b := by
  have : a ||| b < 4294967296 := by
    have := Nat.or_lt_two_pow (n := 32) (by simpa using ha) (by simpa using hb)
    simpa using this
  rw [jsOr32, toUInt32N, Nat.mod_eq_of_lt this]

theorem contLoop_eq (rest : List Nat) : ∀ size shift : Nat,
    shift + 7 * ((foldedBytes rest).length - 1) ≤ 25 → size < 4294967296 →
    contLoop rest size shift
      = (size ||| claimSizeAux (foldedBytes rest) shift, (foldedBytes rest).length) := by
  induction rest with
  | nil =>
    intro size shift hshift hsize
    have hz : jsShl 0 shift = 0 := by
      simp [jsShl, toUInt32N, Nat.zero_shiftLeft]
    simp [contLoop, foldedBytes, claimSizeAux, hz, jsOr32, toUInt32N,
      Nat.mod_eq_of_lt hsize]
  | cons b rs ih =>
    intro size shift hshift hsize
    by_cases hb : (b &&& 128 == 0) = true
    · have hlen : foldedBytes (b :: rs) = [b] := by simp [foldedBytes, hb]
      rw [hlen] at hshift ⊢
      have hs25 : shift ≤ 25 := by simp at hshift; omega
      have hshl := shl7_lt b shift hs25
      rw [contLoop]
      simp only [hb, if_true]
      rw [jsShl_small _ _ (by omega) hshl, jsOr32_small _ _ hsize hshl]
      simp [claimSizeAux]
    · have hlen : foldedBytes (b :: rs) = b :: foldedBytes rs := by simp [foldedBytes, hb]
      have hpos := foldedBytes_length_pos rs
      rw [hlen] at hshift ⊢
      simp only [List.length_cons] at hshift
      have hs25 : shift ≤ 18 := by omega
      have hshl := shl7_lt b shift (by omega)
      have hsize1 : size ||| (b % 128) <<< shift < 4294967296 := by
        have := Nat.or_lt_two_pow (n := 32) (x := size) (y := (b % 128) <<< shift)
          (by simpa using hsize) (by simpa using hshl)
        simpa using this
      rw [contLoop]
      simp only [hb, Bool.false_eq_true, if_false]
      rw [jsShl_small _ _ (by omega) hshl, jsOr32_small _ _ hsize hshl]
      rw [ih (size ||| (b % 128) <<< shift) (shift + 7) (by omega) hsize1]
      simp only [claimSizeAux, List.length_cons]
      rw [Nat.lor_assoc]

theorem parseEntryHeader_spec (data : List Nat) (offset : Nat)
    (h : (contOf data offset).length ≤ 4) :
    parseEntryHeader data offset
      = (byteAt data offset / 16 % 8, claimSize (byteAt data offset) (contOf data offset),
        offset + 1 + (contOf data offset).length) := by
  by_cases hb : (byteAt data offset &&& 128 == 0) = true
  · have hc : contOf data offset = [] := by simp [contOf, hb]
    rw [hc]
    simp [parseEntryHeader, hb, claimSize, claimSizeAux]
  · have hc : contOf data offset = foldedBytes (data.drop (offset + 1)) := by
      simp [contOf, hb]
    rw [hc] at h ⊢
    have hpos := foldedBytes_length_pos (data.drop (offset + 1))
    have hloop := contLoop_eq (data.drop (offset + 1)) (byteAt data offset % 16) 4
      (by omega) (by omega)
    rw [parseEntryHeader]
    simp only [hb, Bool.false_eq_true, if_false]
    rw [hloop]
    simp [claimSize]

theorem startsWithB_append (pre rest : List Nat) : startsWithB pre (pre ++ rest) = true := by
  induction pre with
  | nil => rfl
  | cons a l ih => simp [startsWithB, ih]

theorem splitOnByte_joinByte_append (c : Nat) :
    ∀ (clean rest : List (List Nat)), rest ≠ [] →
    (∀ part ∈ clean, ∀ b ∈ part, b ≠ c) →
    splitOnByte c (joinByte c (clean ++ rest)) = clean ++ splitOnByte c (joinByte c rest) := by
  intro clean
  induction clean with
  | nil => intro rest _ _; simp
  | cons x xs ih =>
    intro rest hr h
    have hne : xs ++ rest ≠ [] := by
      cases xs <;> simp [hr]
    have hj : joinByte c ((x :: xs) ++ rest) = x ++ c :: joinByte c (xs ++ rest) := by
      rw [List.cons_append]
      cases hxs : xs ++ rest with
      | nil => exact absurd hxs hne
      | cons z zs => rfl
    rw [hj, splitOnByte_sep c x _ (h x (by simp)),
      ih rest hr (fun p hp => h p (by simp [hp]))]
    rfl

/-! ## Claims -/

/-- C1: the claim says that after decompressing a literal (non-delta) entry
the pack decoder advances its stream cursor by exactly the number of
compressed input bytes consumed by the decompressor.  The code instead
advances by the remaining buffer length (line 123: `offset +=
compressed.length` where `compressed = packData.subarray(offset)`): on a
2-literal-entry pack the cursor jumps from 13 to 22 (the end of the 22-byte
stream) although the decompressor consumed only 4 bytes (the claim requires
new offset 17), so the second entry's header is never read at its real
offset and decoding aborts after storing only the first blob. -/
theorem c1_literal_cursor_bug :
    packStep toyInflate packTwoLiterals 12 = .ok (some ("blob", [104, 105]), 22) ∧
    toyConsumed (packTwoLiterals.drop 13) = some 4 ∧
    13 + 4 ≠ 22 ∧
    processPackfile toyInflate packTwoLiterals
      = ([("blob", [104, 105])], some .inflateFailed) :=
  ⟨by decide, by decide, by decide, by decide⟩

/-- C2: in the claim's concrete scenario (entry 1 a literal blob "hello\n",
entry 2 a ref-delta) the decoder does store exactly one object with the same
(kind, payload) pair as hash-object on "hello\n" — hence the same SHA-1
digest of the same store encoding — though the run then aborts with an
inflate error instead of finishing.  The claim's general clause is false:
with the delta first, the skip advances by the declared uncompressed size
(ignoring the ref-delta's 20-byte base reference and its compressed length),
desynchronizing entry parsing, and the literal blob after the delta is never
stored (zero objects stored). -/
theorem c2_delta_skip_bug :
    processPackfile toyInflate packHelloThenDelta
      = ([hashObjectStored helloBytes], some .inflateFailed) ∧
    processPackfile toyInflate packDeltaThenHello = ([], some .inflateFailed) :=
  ⟨by decide, by decide⟩

/-- C3: for every kind K in blob/tree/commit and every payload P, reading
back (inflateObject) the store encoding written by put (writeGitObjectStore)
returns exactly the pair (K, P), with K as its byte encoding. -/
theorem c3_put_get_roundtrip (K : String)
    (hK : K = "blob" ∨ K = "tree" ∨ K = "commit") (P : List Nat) :
    inflateObject (writeGitObjectStore K P) = .ok (strBytes K, P) := by
  have h0 : ∀ b ∈ strBytes K, b ≠ 0 := by
    rcases hK with rfl | rfl | rfl <;> decide
  have h32 : ∀ b ∈ strBytes K, b ≠ 32 := by
    rcases hK with rfl | rfl | rfl <;> decide
  exact inflateObject_encode (strBytes K) P h0 h32

/-- Witness for C3 at K = "blob", P = "hi". -/
theorem c3_put_get_roundtrip_witness :
    ("blob" = "blob" ∨ "blob" = "tree" ∨ "blob" = "commit") ∧
    inflateObject (writeGitObjectStore "blob" [104, 105])
      = .ok (strBytes "blob", [104, 105]) :=
  ⟨Or.inl rfl, c3_put_get_roundtrip "blob" (Or.inl rfl) [104, 105]⟩

/-- C4: the claim says write-tree emits entries sorted by name ascending in
byte-wise (not locale-aware) order.  The code sorts with
`a.name.localeCompare(b.name)` (line 356): for a directory holding the files
"B" and "a" the encoded entry order is ["a", "B"], and the payload is the
corresponding concatenation (with each entry's real SHA-1 blob digest),
although byte-wise 0x42 "B" sorts strictly before 0x61 "a" — so the payload
is not byte-wise sorted and the tree digest differs from the canonical
encoding's. -/
theorem c4_locale_sort_bug :
    (writeTreeEntries 1 [FsEntry.file "B" [66], FsEntry.file "a" [97]]).map TreeEntryW.name
      = ["a", "B"] ∧
    writeTreePayload 1 [FsEntry.file "B" [66], FsEntry.file "a" [97]]
      = (strBytes "100644 a" ++
          0 :: hexPairsToBytes (strBytes "2e65efe2a145dda7ee51d1741299f848e5bf752e")) ++
        (strBytes "100644 B" ++
          0 :: hexPairsToBytes (strBytes "7371f47a6f8bd23a8fa1a8b2a9479cdd76380e54")) ∧
    bytewiseLeB (strBytes "B") (strBytes "a") = true ∧
    bytewiseLeB (strBytes "a") (strBytes "B") = false :=
  ⟨by decide, by decide, by decide, by decide⟩

/-- C5 counterexample: the claim's fold "at a bit shift that starts at 4 and
increases by 7 for each continuation byte read" fails at the fifth
continuation byte, where the JS shift is taken modulo 32: on the header bytes
0x80 0x80 0x80 0x80 0x80 0x01 the code computes size 1 (the final low bits
are folded at shift 32 % 32 = 0), while the claim's arbitrary-precision fold
yields 2^32. -/
theorem c5_pure_shift_counterexample :
    parseEntryHeader [128, 128, 128, 128, 128, 1] 0 = (0, 1, 6) ∧
    contOf [128, 128, 128, 128, 128, 1] 0 = [128, 128, 128, 128, 1] ∧
    claimSize 128 [128, 128, 128, 128, 1] = 4294967296 ∧
    (1 : Nat) ≠ 4294967296 :=
  ⟨by decide, by decide, by decide, by decide⟩

/-- C5 (amended): the pack entry header parse takes the type tag from bits
4-6 of the first byte, seeds the size accumulator with its low 4 bits, and
folds each continuation byte's low 7 bits at shifts 4, 11, 18, ... under JS
32-bit semantics (shift modulo 32, 32-bit accumulator); whenever at most four
continuation bytes are read — so every shift stays below 32 — this is exactly
the claim's fold as stated, and the cursor advances one byte per byte read. -/
theorem c5_varint_header (data : List Nat) (offset : Nat)
    (h : (contOf data offset).length ≤ 4) :
    parseEntryHeader data offset
      = (byteAt data offset / 16 % 8,
          claimSize (byteAt data offset) (contOf data offset),
          offset + 1 + (contOf data offset).length) :=
  parseEntryHeader_spec data offset h

/-- Witness for C5 at the header bytes 0x97 0x0a: type 1, one continuation
byte folding 10 at shift 4, size 7 ||| 160 = 167. -/
theorem c5_varint_header_witness :
    (contOf [151, 10] 0).length ≤ 4 ∧
    parseEntryHeader [151, 10] 0
      = (byteAt [151, 10] 0 / 16 % 8,
          claimSize (byteAt [151, 10] 0) (contOf [151, 10] 0),
          0 + 1 + (contOf [151, 10] 0).length) :=
  ⟨by decide, c5_varint_header [151, 10] 0 (by decide)⟩

/-- C7 counterexample: the claim says decodeTree fails with MalformedTree
rather than returning an entry list when a delimiter is missing.  The
source's parseTreeContent is a total function into entry lists and never
fails: on the payload "100644" — no space delimiter before the payload ends —
it returns the entry list []. -/
theorem c7_no_failure_counterexample :
    parseTreeContent (strBytes "100644") = [] := by decide

theorem findIdxByte_append (t : Nat) (p : List Nat) : ∀ (hdr : List Nat) (i : Nat),
    (∀ b ∈ hdr, b ≠ t) →
    List.findIdx? (fun b => b == t) (hdr ++ t :: p) i = some (hdr.length + i) := by
  intro hdr
  induction hdr with
  | nil => intro i _; simp [List.findIdx?_cons]
  | cons b r ih =>
    intro i h
    have hb : (b == t) = false := by
      simp only [beq_eq_false_iff_ne, ne_eq]
      exact h b (by simp)
    rw [List.cons_append, List.findIdx?_cons, hb]
    simp only [Bool.false_eq_true, if_false]
    rw [ih (i + 1) (fun x hx => h x (by simp [hx]))]
    simp only [List.length_cons]
    congr 1
    omega

theorem slice_middle (l pre mid post : List Nat) (a b : Nat)
    (hl : l = pre ++ (mid ++ post)) (ha : a = pre.length)
    (hb : b = pre.length + mid.length) :
    (l.take b).drop a = mid := by
  subst hl ha hb
  rw [List.drop_take, List.drop_left, Nat.add_sub_cancel_left, List.take_left]

theorem bufIndexOfFrom_at (l pre mid post : List Nat) (t : Nat) (start : Nat)
    (hl : l = pre ++ (mid ++ t :: post)) (hs : start = pre.length)
    (hm : ∀ b ∈ mid, b ≠ t) :
    bufIndexOfFrom l t start = some (start + mid.length) := by
  subst hl hs
  rw [bufIndexOfFrom, List.drop_left, findIdxByte_append t post mid 0 hm]
  exact congrArg some (by show mid.length + 0 + pre.length = pre.length + mid.length; omega)

theorem encodeTreeEntries_length (entries : List (List Nat × List Nat × List Nat)) :
    entries.length ≤ (encodeTreeEntries entries).length := by
  induction entries with
  | nil => simp [encodeTreeEntries]
  | cons e es ih =>
    obtain ⟨m, n, h⟩ := e
    simp [encodeTreeEntries]
    omega

theorem parseTreeLoop_encode (junk : List Nat)
    (hjunk : (32 : Nat) ∉ junk ∨
      ∃ i, junk.findIdx? (fun b => b == 32) = some i ∧ (0 : Nat) ∉ junk.drop (i + 1)) :
    ∀ (entries : List (List Nat × List Nat × List Nat)) (done : List Nat) (fuel : Nat),
    entries.length < fuel →
    (∀ e ∈ entries, (32 : Nat) ∉ e.1 ∧ (0 : Nat) ∉ e.2.1 ∧ e.2.2.length = 20) →
    parseTreeLoop (done ++ (encodeTreeEntries entries ++ junk)) done.length fuel
      = entries.map (fun e => TreeEntryM.mk e.1 (hexOfBytes e.2.2) e.2.1) := by
  intro entries
  induction entries with
  | nil =>
    intro done fuel hfuel _
    obtain ⟨f, rfl⟩ : ∃ f, fuel = f + 1 := ⟨fuel - 1, by omega⟩
    simp only [encodeTreeEntries, List.nil_append, List.map_nil]
    by_cases hlen : done.length < (done ++ junk).length
    · simp only [parseTreeLoop]
      rw [if_pos hlen]
      rcases hjunk with h32 | ⟨i, hfi, h0⟩
      · have hfind : bufIndexOfFrom (done ++ junk) 32 done.length = none := by
          rw [bufIndexOfFrom, List.drop_left]
          rw [List.findIdx?_eq_none_iff.mpr]
          · rfl
          · intro x hx
            simp only [beq_eq_false_iff_ne, ne_eq]
            intro e; subst e; exact h32 hx
        simp [hfind]
      · have hfind : bufIndexOfFrom (done ++ junk) 32 done.length
            = some (i + done.length) := by
          rw [bufIndexOfFrom, List.drop_left, hfi]
          rfl
        have hnull : bufIndexOfFrom (done ++ junk) 0 (i + done.length + 1) = none := by
          rw [bufIndexOfFrom]
          have hidx : i + done.length + 1 = done.length + (i + 1) := by omega
          rw [hidx, List.drop_append]
          rw [List.findIdx?_eq_none_iff.mpr]
          · rfl
          · intro x hx
            simp only [beq_eq_false_iff_ne, ne_eq]
            intro e; subst e; exact h0 hx
        simp [hfind, hnull]
    · simp only [parseTreeLoop]
      rw [if_neg hlen]
  | cons e es ih =>
    intro done fuel hfuel hwf
    obtain ⟨mode, name, hash⟩ := e
    obtain ⟨f, rfl⟩ : ∃ f, fuel = f + 1 := ⟨fuel - 1, by omega⟩
    obtain ⟨hm32, hn0, hh20⟩ := hwf (mode, name, hash) (by simp)
    have hm32a : ∀ b ∈ mode, b ≠ 32 := fun b hb e => hm32 (e ▸ hb)
    have hn0a : ∀ b ∈ name, b ≠ 0 := fun b hb e => hn0 (e ▸ hb)
    have hh20a : hash.length = 20 := hh20
    have hbuf : done ++ (encodeTreeEntries ((mode, name, hash) :: es) ++ junk)
        = done ++ (mode ++ 32 :: (name ++ 0 :: (hash ++ (encodeTreeEntries es ++ junk)))) := by
      simp [encodeTreeEntries]
    rw [hbuf]
    have hlen : done.length
        < (done ++ (mode ++ 32 :: (name ++ 0 :: (hash ++ (encodeTreeEntries es ++ junk))))).length := by
      simp
    have hsp : bufIndexOfFrom
        (done ++ (mode ++ 32 :: (name ++ 0 :: (hash ++ (encodeTreeEntries es ++ junk)))))
        32 done.length = some (done.length + mode.length) :=
      bufIndexOfFrom_at _ done mode _ 32 done.length rfl rfl hm32a
    have hnull : bufIndexOfFrom
        (done ++ (mode ++ 32 :: (name ++ 0 :: (hash ++ (encodeTreeEntries es ++ junk)))))
        0 (done.length + mode.length + 1)
        = some (done.length + mode.length + 1 + name.length) := by
      refine bufIndexOfFrom_at _ (done ++ mode ++ [32]) name
        (hash ++ (encodeTreeEntries es ++ junk)) 0 _ ?_ ?_ hn0a
      · simp
      · simp only [List.length_append, List.length_cons, List.length_nil]
    have hmode : ((done ++ (mode ++ 32 :: (name ++ 0 :: (hash ++ (encodeTreeEntries es ++ junk))))).take
          (done.length + mode.length)).drop done.length = mode :=
      slice_middle _ done mode _ _ _ rfl rfl rfl
    have hname : ((done ++ (mode ++ 32 :: (name ++ 0 :: (hash ++ (encodeTreeEntries es ++ junk))))).take
          (done.length + mode.length + 1 + name.length)).drop
          (done.length + mode.length + 1) = name := by
      refine slice_middle _ (done ++ mode ++ [32]) name (0 :: (hash ++ (encodeTreeEntries es ++ junk)))
        _ _ ?_ ?_ ?_
      · simp
      · simp only [List.length_append, List.length_cons, List.length_nil]
      · simp only [List.length_append, List.length_cons, List.length_nil]
    have hhash : ((done ++ (mode ++ 32 :: (name ++ 0 :: (hash ++ (encodeTreeEntries es ++ junk))))).take
          (done.length + mode.length + 1 + name.length + 21)).drop
          (done.length + mode.length + 1 + name.length + 1) = hash := by
      refine slice_middle _ (done ++ mode ++ [32] ++ name ++ [0]) hash
        (encodeTreeEntries es ++ junk) _ _ ?_ ?_ ?_
      · simp
      · simp only [List.length_append, List.length_cons, List.length_nil]
      · simp only [List.length_append, List.length_cons, List.length_nil]
        omega
    have hrec : parseTreeLoop
          (done ++ (mode ++ 32 :: (name ++ 0 :: (hash ++ (encodeTreeEntries es ++ junk)))))
          (done.length + mode.length + 1 + name.length + 21) f
        = es.map (fun e => TreeEntryM.mk e.1 (hexOfBytes e.2.2) e.2.1) := by
      have hre : done ++ (mode ++ 32 :: (name ++ 0 :: (hash ++ (encodeTreeEntries es ++ junk))))
          = (done ++ mode ++ [32] ++ name ++ [0] ++ hash) ++ (encodeTreeEntries es ++ junk) := by
        simp
      have hpos : done.length + mode.length + 1 + name.length + 21
          = (done ++ mode ++ [32] ++ name ++ [0] ++ hash).length := by
        simp only [List.length_append, List.length_cons, List.length_nil]
        omega
      rw [hre, hpos]
      exact ih (done ++ mode ++ [32] ++ name ++ [0] ++ hash) f
        (by simp only [List.length_cons] at hfuel; omega)
        (fun x hx => hwf x (by simp [hx]))
    simp only [parseTreeLoop]
    rw [if_pos hlen]
    simp only [hsp, hnull, hmode, hname, hhash, hrec]
    simp

/-- C7 (amended): when a required delimiter is missing before the payload
ends, parseTreeContent stops scanning (the loop breaks) and returns the
entries parsed so far, without signaling any error: on every payload made of
well-formed leading entries (space-free mode, NUL-free name, 20 raw hash
bytes) followed by a tail in which the space delimiter is missing, or the
NUL delimiter after its first space is missing, the parse returns exactly
those leading entries — never a MalformedTree failure. -/
theorem c7_missing_delimiter_lenient (entries : List (List Nat × List Nat × List Nat))
    (junk : List Nat)
    (hwf : ∀ e ∈ entries, (32 : Nat) ∉ e.1 ∧ (0 : Nat) ∉ e.2.1 ∧ e.2.2.length = 20)
    (hjunk : (32 : Nat) ∉ junk ∨
      ∃ i, junk.findIdx? (fun b => b == 32) = some i ∧ (0 : Nat) ∉ junk.drop (i + 1)) :
    parseTreeContent (encodeTreeEntries entries ++ junk)
      = entries.map (fun e => TreeEntryM.mk e.1 (hexOfBytes e.2.2) e.2.1) := by
  have hfuel : entries.length < (encodeTreeEntries entries ++ junk).length + 1 := by
    have := encodeTreeEntries_length entries
    simp only [List.length_append]
    omega
  have h := parseTreeLoop_encode junk hjunk entries []
    ((encodeTreeEntries entries ++ junk).length + 1) hfuel hwf
  simpa [parseTreeContent] using h

/-- Witness for C7: one well-formed entry "100644 x\0" plus 20 hash bytes,
followed by the truncated tail "40000" (its space delimiter is missing): the
parse returns exactly the one leading entry and no error. -/
theorem c7_missing_delimiter_lenient_witness :
    (∀ e ∈ [(strBytes "100644", strBytes "x", List.replicate 20 170)],
      (32 : Nat) ∉ e.1 ∧ (0 : Nat) ∉ e.2.1 ∧ e.2.2.length = 20) ∧
    ((32 : Nat) ∉ strBytes "40000" ∨
      ∃ i, (strBytes "40000").findIdx? (fun b => b == 32) = some i ∧
        (0 : Nat) ∉ (strBytes "40000").drop (i + 1)) ∧
    parseTreeContent
        (encodeTreeEntries [(strBytes "100644", strBytes "x", List.replicate 20 170)]
          ++ strBytes "40000")
      = [TreeEntryM.mk (strBytes "100644") (hexOfBytes (List.replicate 20 170)) (strBytes "x")] :=
  ⟨by decide, Or.inl (by decide),
    by
      simpa using c7_missing_delimiter_lenient
        [(strBytes "100644", strBytes "x", List.replicate 20 170)] (strBytes "40000")
        (by decide) (Or.inl (by decide))⟩

/-- C9: for every inflate collaborator and every input whose first 4 bytes
are not the literal "PACK" signature, pack decoding fails with the
bad-signature error before the entry loop runs, and zero objects are
stored. -/
theorem c9_bad_signature (inflate : List Nat → Option (List Nat)) (data : List Nat)
    (h : data.take 4 ≠ [80, 65, 67, 75]) :
    processPackfile inflate data = ([], some .badPackSignature) := by
  simp only [processPackfile, parsePackHeader, if_pos h]

/-- Witness for C9 on the 3-byte stream 00 01 02. -/
theorem c9_bad_signature_witness :
    ([0, 1, 2] : List Nat).take 4 ≠ [80, 65, 67, 75] ∧
    processPackfile toyInflate [0, 1, 2] = ([], some .badPackSignature) :=
  ⟨by decide, c9_bad_signature toyInflate [0, 1, 2] (by decide)⟩

/-- C10 counterexample: the claim quantifies over "any string k whatsoever".
For the kind "a b" (containing a space) the decompressed form "a b 1\0x" has
the claimed shape with the correct declared length 1, but get fails: the
space in the kind shifts the header split, parseInt("b") is NaN, and the
length check throws — refuting the universal claim. -/
theorem c10_kind_with_space_counterexample :
    inflateObject (strBytes "a b 1" ++ 0 :: strBytes "x") = .error .sizeMismatch := by
  decide

/-- C10 (amended): for every kind byte string k containing neither a space
nor a NUL — with no validation whatsoever against blob/tree/commit — get on
"<k> <len>\0<payload>" with the correct declared length succeeds and returns
k as the kind, and cat-file prints exactly the payload without error. -/
theorem c10_unvalidated_kind (k p : List Nat) (hk : ∀ b ∈ k, b ≠ 0 ∧ b ≠ 32) :
    inflateObject (k ++ 32 :: (natToDec p.length ++ 0 :: p)) = .ok (k, p) ∧
    catFileOutput (k ++ 32 :: (natToDec p.length ++ 0 :: p)) = .ok p := by
  have h := inflateObject_encode k p (fun b hb => (hk b hb).1) (fun b hb => (hk b hb).2)
  refine ⟨h, ?_⟩
  rw [catFileOutput, h]
  rfl

/-- Witness for C10 with the non-standard kind "frobnicate" and payload
[7]. -/
theorem c10_unvalidated_kind_witness :
    (∀ b ∈ strBytes "frobnicate", b ≠ 0 ∧ b ≠ 32) ∧
    (inflateObject (strBytes "frobnicate" ++ 32 :: (natToDec ([7] : List Nat).length ++ 0 :: [7]))
        = .ok (strBytes "frobnicate", [7]) ∧
      catFileOutput (strBytes "frobnicate" ++ 32 :: (natToDec ([7] : List Nat).length ++ 0 :: [7]))
        = .ok [7]) :=
  ⟨by decide, c10_unvalidated_kind (strBytes "frobnicate") [7] (by decide)⟩

theorem inflateObject_split (hdr p : List Nat) (h : ∀ x ∈ hdr, x ≠ 0) :
    inflateObject (hdr ++ 0 :: p)
      = match declaredSizeOf hdr with
        | none => .error .sizeMismatch
        | some n =>
            if (p.length : Int) = n then .ok ((splitOnByte 32 hdr).headD [], p)
            else .error .sizeMismatch := by
  have hfind : (hdr ++ 0 :: p).findIdx? (fun x => x == 0) = some hdr.length := by
    simpa using findIdx0_append p hdr 0 h
  rw [inflateObject, hfind]
  simp only [List.take_left, drop_header]

/-- C6: get fails with a corrupt-object error (no NUL found) when the
decompressed data contains no NUL byte; on data of shape
header ++ NUL ++ payload with a NUL-free header it fails with the
size-mismatch corrupt-object error whenever the declared size differs from
the payload's byte length (including an unparsable, NaN size field); and any
successful get returns exactly the bytes after the first NUL — the payload is
never truncated or padded. -/
theorem c6_corrupt_object_checks (b hdr p : List Nat) :
    ((0 : Nat) ∉ b → inflateObject b = .error .noNullByte) ∧
    ((∀ x ∈ hdr, x ≠ 0) → declaredSizeOf hdr ≠ some (p.length : Int) →
      inflateObject (hdr ++ 0 :: p) = .error .sizeMismatch) ∧
    ((∀ x ∈ hdr, x ≠ 0) → ∀ kk q, inflateObject (hdr ++ 0 :: p) = .ok (kk, q) → q = p) := by
  refine ⟨?_, ?_, ?_⟩
  · intro h0
    have hnone : b.findIdx? (fun x => x == 0) = none := by
      rw [List.findIdx?_eq_none_iff]
      intro x hx
      simp only [beq_eq_false_iff_ne, ne_eq]
      intro e; subst e; exact h0 hx
    rw [inflateObject, hnone]
  · intro h1 h2
    rw [inflateObject_split hdr p h1]
    rcases hds : declaredSizeOf hdr with _ | n
    · rfl
    · have hne : ¬((p.length : Int) = n) := fun e => h2 (by rw [hds, e])
      simp [hne]
  · intro h1 kk q hok
    rw [inflateObject_split hdr p h1] at hok
    rcases hds : declaredSizeOf hdr with _ | n <;> rw [hds] at hok
    · simp at hok
    · by_cases he : (p.length : Int) = n
      · simp [he] at hok
        exact hok.2.symm
      · simp [he] at hok

/-- Witness for C6: a NUL-free buffer errors; a "blob 5" header with a
2-byte payload errors with the size mismatch; and a well-formed "blob 2"
entry's returned payload is exactly the stored payload. -/
theorem c6_corrupt_object_checks_witness :
    ((0 : Nat) ∉ ([1, 2, 3] : List Nat)) ∧
    inflateObject [1, 2, 3] = .error .noNullByte ∧
    (∀ x ∈ strBytes "blob 5", x ≠ 0) ∧
    declaredSizeOf (strBytes "blob 5") ≠ some ((([9, 9] : List Nat).length : Int)) ∧
    inflateObject (strBytes "blob 5" ++ 0 :: [9, 9]) = .error .sizeMismatch ∧
    inflateObject (strBytes "blob 2" ++ 0 :: [8, 8]) = .ok (strBytes "blob", [8, 8]) ∧
    ([8, 8] : List Nat) = [8, 8] :=
  ⟨by decide,
    (c6_corrupt_object_checks [1, 2, 3] [] []).1 (by decide),
    by decide,
    by decide,
    (c6_corrupt_object_checks [1, 2, 3] (strBytes "blob 5") [9, 9]).2.1 (by decide) (by decide),
    by decide,
    (c6_corrupt_object_checks [1, 2, 3] (strBytes "blob 2") [8, 8]).2.2 (by decide)
      (strBytes "blob") [8, 8] (by decide)⟩

/-- C8: for every tree digest T, optional parent digest P (a digest has no
newline and is nonempty), message M and timestamp, the commit payload built
by commit-tree decodes (spec-side decodeCommit) into a commit whose tree
field carries exactly T and whose parent field is present if and only if P
was supplied — carrying exactly P. -/
theorem c8_commit_parent_roundtrip (T : List Nat) (P : Option (List Nat))
    (M : List Nat) (ts : Nat)
    (hT : ∀ b ∈ T, b ≠ 10) (hPne : P ≠ some [])
    (hP10 : ∀ b ∈ P.getD [], b ≠ 10) :
    decodeCommitModel (commitContentBytes T P M ts) = some (T, P) := by
  have hA10 : ∀ b ∈ strBytes "tree " ++ T, b ≠ 10 := by
    intro b hb
    rcases List.mem_append.mp hb with h | h
    · have hlit : ∀ x ∈ strBytes "tree ", x ≠ 10 := by decide
      exact hlit b h
    · exact hT b h
  have hC10 : ∀ b ∈ strBytes ("author " ++ AUTHOR ++ " ") ++ natToDec ts ++ strBytes " +0530",
      b ≠ 10 := by
    intro b hb
    rcases List.mem_append.mp hb with h | h
    · rcases List.mem_append.mp h with h1 | h1
      · have hlit : ∀ x ∈ strBytes ("author " ++ AUTHOR ++ " "), x ≠ 10 := by decide
        exact hlit b h1
      · have := natToDec_bounds ts b h1; omega
    · have hlit : ∀ x ∈ strBytes " +0530", x ≠ 10 := by decide
      exact hlit b h
  have hD10 : ∀ b ∈ strBytes ("committer " ++ COMMITTER ++ " ") ++ natToDec ts ++ strBytes " +0530",
      b ≠ 10 := by
    intro b hb
    rcases List.mem_append.mp hb with h | h
    · rcases List.mem_append.mp h with h1 | h1
      · have hlit : ∀ x ∈ strBytes ("committer " ++ COMMITTER ++ " "), x ≠ 10 := by decide
        exact hlit b h1
      · have := natToDec_bounds ts b h1; omega
    · have hlit : ∀ x ∈ strBytes " +0530", x ≠ 10 := by decide
      exact hlit b h
  have hAe : (strBytes "tree " ++ T).isEmpty = false := rfl
  have hCe : (strBytes ("author " ++ AUTHOR ++ " ") ++ natToDec ts ++ strBytes " +0530").isEmpty
      = false := rfl
  have hDe : (strBytes ("committer " ++ COMMITTER ++ " ") ++ natToDec ts ++ strBytes " +0530").isEmpty
      = false := rfl
  have hfT : startsWithB (strBytes "tree ") (strBytes "tree " ++ T) = true :=
    startsWithB_append _ _
  have hpA : startsWithB (strBytes "parent ") (strBytes "tree " ++ T) = false := rfl
  have hdropT : (strBytes "tree " ++ T).drop 5 = T := rfl
  rcases P with _ | p0
  · have hsplit := splitOnByte_joinByte_append 10
      [strBytes "tree " ++ T, [],
        strBytes ("author " ++ AUTHOR ++ " ") ++ natToDec ts ++ strBytes " +0530",
        strBytes ("committer " ++ COMMITTER ++ " ") ++ natToDec ts ++ strBytes " +0530",
        []]
      [M, []] (by simp)
      (by
        intro part hp
        simp only [List.mem_cons, List.not_mem_nil, or_false] at hp
        rcases hp with rfl | rfl | rfl | rfl | rfl
        · exact hA10
        · intro b hb; simp at hb
        · exact hC10
        · exact hD10
        · intro b hb; simp at hb)
    have hcc : commitContentBytes T none M ts
        = joinByte 10
            ([strBytes "tree " ++ T, [],
              strBytes ("author " ++ AUTHOR ++ " ") ++ natToDec ts ++ strBytes " +0530",
              strBytes ("committer " ++ COMMITTER ++ " ") ++ natToDec ts ++ strBytes " +0530",
              []] ++ [M, []]) := rfl
    unfold decodeCommitModel
    rw [hcc, hsplit]
    simp only [List.cons_append, List.nil_append, List.takeWhile_cons, hAe,
      Bool.not_false, if_true, List.isEmpty_nil, Bool.not_true, Bool.false_eq_true, if_false,
      List.find?_cons, hfT, hpA]
    rw [hdropT]
    simp
  · have hp0ne : p0 ≠ [] := fun e => hPne (by rw [e])
    have hp010 : ∀ b ∈ p0, b ≠ 10 := by simpa using hP10
    have hB10 : ∀ b ∈ strBytes "parent " ++ p0, b ≠ 10 := by
      intro b hb
      rcases List.mem_append.mp hb with h | h
      · have hlit : ∀ x ∈ strBytes "parent ", x ≠ 10 := by decide
        exact hlit b h
      · exact hp010 b h
    have hp0e : p0.isEmpty = false := by
      cases p0 with
      | nil => exact absurd rfl hp0ne
      | cons _ _ => rfl
    have hBe : (strBytes "parent " ++ p0).isEmpty = false := rfl
    have hfB : startsWithB (strBytes "parent ") (strBytes "parent " ++ p0) = true :=
      startsWithB_append _ _
    have hdropB : (strBytes "parent " ++ p0).drop 7 = p0 := rfl
    have hsplit := splitOnByte_joinByte_append 10
      [strBytes "tree " ++ T, strBytes "parent " ++ p0,
        strBytes ("author " ++ AUTHOR ++ " ") ++ natToDec ts ++ strBytes " +0530",
        strBytes ("committer " ++ COMMITTER ++ " ") ++ natToDec ts ++ strBytes " +0530",
        []]
      [M, []] (by simp)
      (by
        intro part hp
        simp only [List.mem_cons, List.not_mem_nil, or_false] at hp
        rcases hp with rfl | rfl | rfl | rfl | rfl
        · exact hA10
        · exact hB10
        · exact hC10
        · exact hD10
        · intro b hb; simp at hb)
    have hcc : commitContentBytes T (some p0) M ts
        = joinByte 10
            ([strBytes "tree " ++ T, strBytes "parent " ++ p0,
              strBytes ("author " ++ AUTHOR ++ " ") ++ natToDec ts ++ strBytes " +0530",
              strBytes ("committer " ++ COMMITTER ++ " ") ++ natToDec ts ++ strBytes " +0530",
              []] ++ [M, []]) := by
      simp [commitContentBytes, hp0e]
    unfold decodeCommitModel
    rw [hcc, hsplit]
    simp only [List.cons_append, List.nil_append, List.takeWhile_cons, hAe, hBe, hCe, hDe,
      Bool.not_false, if_true, List.isEmpty_nil, Bool.not_true, Bool.false_eq_true, if_false,
      List.find?_cons, hfT, hpA, hfB]
    rw [hdropT]
    simp [hdropB]

/-- Witness for C8 with tree digest "abc", parent digest "de", message
"hi" and timestamp 7. -/
theorem c8_commit_parent_roundtrip_witness :
    (∀ b ∈ strBytes "abc", b ≠ 10) ∧
    (some (strBytes "de") ≠ some ([] : List Nat)) ∧
    (∀ b ∈ (some (strBytes "de")).getD [], b ≠ 10) ∧
    decodeCommitModel
        (commitContentBytes (strBytes "abc") (some (strBytes "de")) (strBytes "hi") 7)
      = some (strBytes "abc", some (strBytes "de")) :=
  ⟨by decide, by decide, by decide,
    c8_commit_parent_roundtrip (strBytes "abc") (some (strBytes "de")) (strBytes "hi") 7
      (by decide) (by decide) (by decide)⟩
